import Mathlib

/-!
Verification of the Nord Pool Elbas price fetcher (`nordpool/elbas.py`).

The file shallowly embeds the `Prices` class of `nordpool/elbas.py`:
its `_parse_json` transform, the request construction of `_fetch_json`,
and the `fetch` / `hourly` entry points.  Python exceptions
(`CurrencyMismatch`, `TypeError`, `IndexError`, `ValueError`) are
modelled with `Except`; Python dictionaries that the code builds in
insertion order are modelled as association lists; timestamps are
integers (seconds), so `timedelta(hours=1)` is `+ 3600`.
-/

namespace Elbas

/-- Exceptions the embedded code can raise.  `currencyMismatch` models the
`CurrencyMismatch` exception class imported from `nordpool.base`; the other
constructors model the corresponding Python built-in exceptions. -/
inductive FetchError where
  | currencyMismatch
  | typeError
  | indexError
  | valueError
  deriving DecidableEq, Repr

/-- A Gregorian calendar date, for `datetime.date` values. -/
structure Date where
  year : Nat
  month : Nat
  day : Nat
  deriving DecidableEq, Repr

/-- Modelled from the spec: the `Base` collaborator (`nordpool/base.py`) is not
under `src/`.  Per the spec it supplies the configured `currency` (and
`timeout`), the helper `_parse_dt` ("straightforward ISO-like datetime
parsing", modelled as an abstract timestamp-valued function, timestamps in
seconds) and `_conv_to_float` ("locale-aware float parsing", modelled as an
abstract rational-valued function).  `parseDateStr` models
`dateutil.parser.parse` used by `_fetch_json` on string end dates. -/
structure Base where
  currency : String
  parseDt : String → Int
  convToFloat : String → Rat
  parseDateStr : String → Date

/-- A value that can be passed where the Python code expects a list of
strings: an actual list, a plain string, or `None`. -/
inductive PyArg where
  | list (xs : List String)
  | str (s : String)
  | none
  deriving DecidableEq, Repr

/-- `list(x)` as applied by the normalization
`if not isinstance(x, list): x = list(x)`: a list is kept as is, a string
becomes the list of its characters (each a one-character string), and
`list(None)` raises `TypeError`. -/
def normalizeArg : PyArg → Except FetchError (List String)
  | .list xs => .ok xs
  | .str s => .ok (s.data.map (fun c => String.mk [c]))
  | .none => .error .typeError

/-- `"".join(x)`: concatenates a list of strings; joining the characters of a
string yields the string back; `"".join(None)` raises `TypeError`. -/
def pyJoinEmpty : PyArg → Except FetchError String
  | .list xs => .ok (String.join xs)
  | .str s => .ok s
  | .none => .error .typeError

/-- Python `str.split(sep)` for a one-character separator, on the character
list: every occurrence of `sep` separates groups, and empty groups are kept
(`"".split("-") == [""]`). -/
def splitChar (sep : Char) : List Char → List (List Char)
  | [] => [[]]
  | c :: cs =>
      let r := splitChar sep cs
      if c = sep then [] :: r
      else (c :: r.headD []) :: r.tail

/-- Python `s.split(sep)` for a one-character separator. -/
def pySplit (sep : Char) (s : String) : List String :=
  (splitChar sep s.data).map (fun g => String.mk g)

/-- `" ".join(name.split("-")).split(" ")` from `_parse_json`: the row name is
split on `"-"`, rejoined with spaces, and split again on spaces. -/
def splitRowName (s : String) : List String :=
  pySplit ' ' (String.intercalate " " (pySplit '-' s))

/-- Surrounding whitespace, as stripped by Python `int`. -/
def pyTrimChars (cs : List Char) : List Char :=
  ((cs.dropWhile Char.isWhitespace).reverse.dropWhile Char.isWhitespace).reverse

/-- Reads a run of decimal digits into an accumulator; any other character
fails. -/
def parseDigitsAux : List Char → Nat → Option Nat
  | [], acc => some acc
  | c :: cs, acc =>
      if c.isDigit then parseDigitsAux cs (acc * 10 + (c.toNat - 48)) else .none

/-- A non-empty run of decimal digits as a number. -/
def parseDigits : List Char → Option Nat
  | [] => .none
  | c :: cs => parseDigitsAux (c :: cs) 0

/-- Python `int(s)` on a string: optional surrounding whitespace, optional
sign, decimal digits; anything else raises `ValueError` (`Option.none`
here). -/
def pyInt? (s : String) : Option Int :=
  match pyTrimChars s.data with
  | '-' :: rest => (parseDigits rest).map (fun n => -(n : Int))
  | '+' :: rest => (parseDigits rest).map (fun n => (n : Int))
  | cs => (parseDigits cs).map (fun n => (n : Int))

/-- `format(i, "02")`: decimal rendering zero-padded to width 2. -/
def pyFormat02 (i : Int) : String :=
  let s := toString i
  if s.length ≥ 2 then s else String.mk (List.replicate (2 - s.length) '0') ++ s

/-- One entry of a row's `Columns` list. -/
structure RawColumn where
  name : String
  value : String
  deriving DecidableEq, Repr

/-- One entry of the response's `data.Rows` list; `Name` may be null. -/
structure RawRow where
  name : Option String
  isExtraRow : Bool
  columns : List RawColumn
  deriving DecidableEq, Repr

/-- The `data` object of the JSON response. -/
structure RawData where
  dateUpdated : String
  rows : List RawRow
  deriving DecidableEq, Repr

/-- The JSON response document. -/
structure Response where
  currency : String
  data : RawData
  deriving DecidableEq, Repr

/-- The value stored in an emitted point: the raw string for the `"Product"`
column, the `_conv_to_float` result for every other column. -/
inductive PriceValue where
  | str (s : String)
  | num (q : Rat)
  deriving DecidableEq, Repr

/-- One emitted point `{"start": ..., "end": ..., "value": ...}`.  The field
`stop` models the dictionary key `"end"` (a Lean keyword). -/
structure PricePoint where
  start : Int
  stop : Int
  value : PriceValue
  deriving DecidableEq, Repr

/-- The per-area series map `areas_data[areas[0]]`: column name to point
list, in insertion order. -/
abbrev Series := List (String × List PricePoint)

/-- `name in areas_data[areas[0]].keys()`. -/
def hasKey (series : Series) (k : String) : Bool :=
  series.any (fun e => e.1 == k)

/-- `areas_data[areas[0]][name].append(p)`: the point is appended to the list
stored under key `k`. -/
def appendPoint (series : Series) (k : String) (p : PricePoint) : Series :=
  series.map (fun e => if e.1 = k then (e.1, e.2 ++ [p]) else e)

/-- The result dictionary of `_parse_json`. -/
structure FetchResult where
  updated : Int
  currency : String
  areas : List (String × Series)
  deriving DecidableEq, Repr

/-- The body of the inner `for c in r["Columns"]` loop of `_parse_json` for a
single column `c`: skip when a non-empty `columns` filter excludes the name,
lazily create the key, skip extra rows, then append the point (raw string for
`"Product"`, float conversion otherwise). -/
def processColumn (base : Base) (columns : List String) (isExtra : Bool)
    (rowStart rowEnd : Int) (series : Series) (c : RawColumn) : Series :=
  if columns ≠ [] ∧ c.name ∉ columns then series
  else
    let series1 := if hasKey series c.name then series else series ++ [(c.name, ([] : List PricePoint))]
    if isExtra then series1
    else if c.name = "Product" then
      appendPoint series1 c.name ⟨rowStart, rowEnd, .str c.value⟩
    else
      appendPoint series1 c.name ⟨rowStart, rowEnd, .num (base.convToFloat c.value)⟩

/-- The inner `for c in r["Columns"]` loop of `_parse_json`. -/
def processColumns (base : Base) (columns : List String) (isExtra : Bool)
    (rowStart rowEnd : Int) (series : Series) : List RawColumn → Series
  | [] => series
  | c :: cs =>
      processColumns base columns isExtra rowStart rowEnd
        (processColumn base columns isExtra rowStart rowEnd series c) cs

/-- `"-".join([name[1], format(int(name[2]) - 1, "02")])` on the split row
name: indexing past the end raises `IndexError`, a non-numeric hour token
raises `ValueError`. -/
def rowStartString (toks : List String) : Except FetchError String :=
  match toks[1]? with
  | .none => .error .indexError
  | .some t1 =>
      match toks[2]? with
      | .none => .error .indexError
      | .some t2 =>
          match pyInt? t2 with
          | .none => .error .valueError
          | .some h => .ok (String.intercalate "-" [t1, pyFormat02 (h - 1)])

/-- The body of the outer `for r in data["Rows"]` loop of `_parse_json` for a
single row: skip null names, skip rows whose first token is not `"PH"`,
compute the row start (`_parse_dt`) and end (start plus one hour), then walk
the columns. -/
def processRow (base : Base) (columns : List String) (series : Series)
    (r : RawRow) : Except FetchError Series :=
  match r.name with
  | .none => .ok series
  | .some nm =>
      let toks := splitRowName nm
      if toks.headD "" ≠ "PH" then .ok series
      else
        match rowStartString toks with
        | .error e => .error e
        | .ok s =>
            let rowStart := base.parseDt s
            let rowEnd := rowStart + 3600
            .ok (processColumns base columns r.isExtraRow rowStart rowEnd series r.columns)

/-- The outer `for r in data["Rows"]` loop of `_parse_json`. -/
def processRows (base : Base) (columns : List String) (series : Series) :
    List RawRow → Except FetchError Series
  | [] => .ok series
  | r :: rs =>
      match processRow base columns series r with
      | .error e => .error e
      | .ok series1 => processRows base columns series1 rs

/-- `_parse_json(data, columns, areas)`: normalize the arguments, raise
`CurrencyMismatch` when the response currency differs from the configured
one, parse the update timestamp, seed the area map with the single key
`areas[0]` (raising `IndexError` when `areas` is empty), walk the rows, and
return `{"updated": ..., "currency": ..., "areas": ...}`. -/
def parseJson (base : Base) (resp : Response) (columnsArg areasArg : PyArg) :
    Except FetchError FetchResult :=
  match normalizeArg areasArg with
  | .error e => .error e
  | .ok areas =>
      match normalizeArg columnsArg with
      | .error e => .error e
      | .ok columns =>
          if resp.currency ≠ base.currency then .error .currencyMismatch
          else
            let updated := base.parseDt resp.data.dateUpdated
            match areas with
            | [] => .error .indexError
            | a0 :: _ =>
                match processRows base columns [] resp.data.rows with
                | .error e => .error e
                | .ok series => .ok ⟨updated, resp.currency, [(a0, series)]⟩

/-- `True` for leap years of the Gregorian calendar. -/
def isLeapYear (y : Nat) : Bool :=
  (y % 4 == 0 && y % 100 != 0) || y % 400 == 0

/-- Number of days of month `m` in year `y`. -/
def daysInMonth (y m : Nat) : Nat :=
  if m = 2 then (if isLeapYear y then 29 else 28)
  else if m = 4 ∨ m = 6 ∨ m = 9 ∨ m = 11 then 30
  else 31

/-- `d - timedelta(days=1)`: the previous calendar day. -/
def predDay (d : Date) : Date :=
  if d.day > 1 then ⟨d.year, d.month, d.day - 1⟩
  else if d.month > 1 then ⟨d.year, d.month - 1, daysInMonth d.year (d.month - 1)⟩
  else ⟨d.year - 1, 12, 31⟩

/-- Decimal rendering of `n` zero-padded to width `w`. -/
def padZero (w n : Nat) : String :=
  let s := toString n
  if s.length ≥ w then s else String.mk (List.replicate (w - s.length) '0') ++ s

/-- `end_date.strftime("%d-%m-%Y")`: day and month zero-padded to two
digits, year to four. -/
def strftimeDMY (d : Date) : String :=
  padZero 2 d.day ++ "-" ++ padZero 2 d.month ++ "-" ++ padZero 4 d.year

/-- The `end_date` argument of `_fetch_json`: absent, a date, or a string
(handed to `dateutil.parser.parse`). -/
inductive EndDateArg where
  | noneArg
  | dateArg (d : Date)
  | strArg (s : String)
  deriving DecidableEq, Repr

/-- The `end_date` handling of `_fetch_json`: `None` defaults to
`date.today() - timedelta(days=1)`, a string is parsed, a date is kept. -/
def resolveEndDate (base : Base) (today : Date) : EndDateArg → Date
  | .noneArg => predDay today
  | .dateArg d => d
  | .strArg s => base.parseDateStr s

/-- `HOURLY = 194`. -/
def HOURLY : Nat := 194

/-- `API_URL % data_type` with `API_URL =
"https://www.nordpoolgroup.com/api/marketdata/page/%i"`. -/
def apiUrl (dataType : Nat) : String :=
  "https://www.nordpoolgroup.com/api/marketdata/page/" ++ toString dataType

/-- The outbound GET request: URL and the three query parameters. -/
structure HttpRequest where
  url : String
  currency : String
  endDate : String
  entityName : String
  deriving DecidableEq, Repr

/-- `_fetch_json(data_type, areas, end_date)` up to the transport: resolves
the end date and builds the GET request with parameters `currency`,
`endDate` (`strftime("%d-%m-%Y")`) and `entityName` (`"".join(areas)`). -/
def fetchJson (base : Base) (today : Date) (dataType : Nat) (areasArg : PyArg)
    (endDate : EndDateArg) : Except FetchError HttpRequest :=
  let ed := resolveEndDate base today endDate
  match pyJoinEmpty areasArg with
  | .error e => .error e
  | .ok en => .ok ⟨apiUrl dataType, base.currency, strftimeDMY ed, en⟩

/-- `fetch(data_type, columns, end_date, areas)`: issue the request built by
`_fetch_json` and parse the JSON body the server answers with (`respond`
models the transport). -/
def fetch (base : Base) (today : Date) (respond : HttpRequest → Response)
    (dataType : Nat) (columnsArg : PyArg) (endDate : EndDateArg)
    (areasArg : PyArg) : Except FetchError FetchResult :=
  match fetchJson base today dataType areasArg endDate with
  | .error e => .error e
  | .ok req => parseJson base (respond req) columnsArg areasArg

/-- `hourly(end_date, areas, columns)`: defaults `columns` when `None` and
delegates to `fetch(HOURLY, ...)`. -/
def hourly (base : Base) (today : Date) (respond : HttpRequest → Response)
    (endDate : EndDateArg) (areasArg columnsArg : PyArg) :
    Except FetchError FetchResult :=
  let columns := match columnsArg with
    | .none => PyArg.list ["Product", "High", "Low", "Last", "Avg", "Volume"]
    | c => c
  fetch base today respond HOURLY columns endDate areasArg

instance exceptDecEq {ε : Type u} {α : Type v} [DecidableEq ε] [DecidableEq α] :
    DecidableEq (Except ε α) := fun a b =>
  match a, b with
  | .ok x, .ok y =>
      if h : x = y then .isTrue (by rw [h]) else .isFalse (fun hc => h (by cases hc; rfl))
  | .error x, .error y =>
      if h : x = y then .isTrue (by rw [h]) else .isFalse (fun hc => h (by cases hc; rfl))
  | .ok _, .error _ => .isFalse (fun hc => Except.noConfusion hc)
  | .error _, .ok _ => .isFalse (fun hc => Except.noConfusion hc)

/-- A concrete `Base` used to instantiate witnesses: currency EUR, trivial
timestamp and float parsers. -/
def sampleBase : Base := ⟨"EUR", fun _ => 0, fun _ => 0, fun _ => ⟨2023, 1, 1⟩⟩

/-- A concrete hourly row with one `"High"` column. -/
def sampleRow : RawRow := ⟨some "PH-2023-10-15-3", false, [⟨"High", "1"⟩]⟩

/-- A concrete response containing `sampleRow`, in the configured currency. -/
def sampleResp : Response := ⟨"EUR", ⟨"2023-10-16T10:00:00", [sampleRow]⟩⟩

/-- A response in a different currency than the configured EUR. -/
def mismatchResp : Response := ⟨"SEK", ⟨"2023-10-16T10:00:00", [sampleRow]⟩⟩

/-- C2, counterexample: splitting the row name `"PH-2023-10-15-3"` on `"-"`
and then on spaces yields the five tokens `["PH", "2023", "10", "15", "3"]`,
not the three tokens `["PH", "2023-10-15", "3"]` the claim states, and the
string handed to `_parse_dt` is `"2023-09"`, not `"2023-10-15-02"`. -/
theorem c2_split_counterexample :
    splitRowName "PH-2023-10-15-3" = ["PH", "2023", "10", "15", "3"] ∧
    splitRowName "PH-2023-10-15-3" ≠ ["PH", "2023-10-15", "3"] ∧
    rowStartString (splitRowName "PH-2023-10-15-3") = .ok "2023-09" ∧
    rowStartString (splitRowName "PH-2023-10-15-3") ≠ .ok "2023-10-15-02" := by
  refine ⟨by decide, by decide, by decide, by decide⟩

/-- C2, amended: splitting `"PH-2023-10-15-3"` yields the five tokens
`["PH", "2023", "10", "15", "3"]`; the row is retained (first token
`"PH"`), its start is obtained by parsing `"2023-09"` (second token joined
with `"-"` to the third token minus 1, zero-padded to 2 digits), and its end
is the start plus one hour. -/
theorem c2_row_tokens_and_start (base : Base) (v : String) :
    splitRowName "PH-2023-10-15-3" = ["PH", "2023", "10", "15", "3"] ∧
    processRow base [] [] ⟨some "PH-2023-10-15-3", false, [⟨"High", v⟩]⟩ =
      .ok [("High", [⟨base.parseDt "2023-09", base.parseDt "2023-09" + 3600,
        .num (base.convToFloat v)⟩])] :=
  ⟨by decide, rfl⟩

/-- C3: calling `fetch` with the `areas` argument omitted (`None`) does not
use the API's default scope; it raises `TypeError`, because `_fetch_json`
evaluates `"".join(areas)` on `None`.  This contradicts the documented
default ("defaults to all areas"). -/
theorem c3_fetch_without_areas_raises (base : Base) (today : Date)
    (respond : HttpRequest → Response) (dataType : Nat) (columnsArg : PyArg)
    (endDate : EndDateArg) :
    fetch base today respond dataType columnsArg endDate .none = .error .typeError := rfl

/-- C4: a row whose `Name` is null, or whose first token after the split is
not exactly `"PH"`, leaves the series map untouched: no PricePoint (and no
key) is emitted for that row. -/
theorem c4_skips_non_ph_rows (base : Base) (columns : List String)
    (series : Series) (r : RawRow)
    (h : ∀ nm, r.name = some nm → (splitRowName nm).headD "" ≠ "PH") :
    processRow base columns series r = .ok series := by
  unfold processRow
  cases hn : r.name with
  | none => rfl
  | some nm =>
      simp only [hn]
      rw [if_pos (h nm hn)]

/-- C4, witness: a row with null `Name` and a row named `"XX-2023-10-15-3"`
are both skipped. -/
theorem c4_skips_non_ph_rows_witness :
    processRow sampleBase [] [] ⟨Option.none, false, [⟨"High", "1"⟩]⟩ = .ok [] ∧
    processRow sampleBase [] [] ⟨some "XX-2023-10-15-3", false, [⟨"High", "1"⟩]⟩ = .ok [] := by
  constructor
  · exact c4_skips_non_ph_rows sampleBase [] [] _ (by intro nm hnm; cases hnm)
  · exact c4_skips_non_ph_rows sampleBase [] [] _
      (by intro nm hnm; cases hnm; decide)

/-- Characterization of a successful `_parse_json` run: both arguments
normalize, the currency matches, `areas` is non-empty, the row walk
succeeds, and the result carries the parsed update time, the response
currency, and a single-key area map. -/
theorem parseJson_ok_elim {base : Base} {resp : Response} {cArg aArg : PyArg}
    {result : FetchResult} (h : parseJson base resp cArg aArg = .ok result) :
    ∃ areas columns a0 rest series,
      normalizeArg aArg = .ok areas ∧ normalizeArg cArg = .ok columns ∧
      resp.currency = base.currency ∧ areas = a0 :: rest ∧
      processRows base columns [] resp.data.rows = .ok series ∧
      result = ⟨base.parseDt resp.data.dateUpdated, resp.currency, [(a0, series)]⟩ := by
  unfold parseJson at h
  split at h
  · exact Except.noConfusion h
  rename_i areas ha
  split at h
  · exact Except.noConfusion h
  rename_i columns hc
  split at h
  · exact Except.noConfusion h
  rename_i hcur
  split at h
  · exact Except.noConfusion h
  rename_i a0 rest
  split at h
  · exact Except.noConfusion h
  rename_i series hr
  cases h
  exact ⟨a0 :: rest, columns, a0, rest, series, ha, hc, not_not.mp hcur, rfl, hr, rfl⟩

/-- The concrete `FetchResult` obtained by parsing `sampleResp` with
`sampleBase` and area list `["FI"]`. -/
def sampleResult : FetchResult :=
  ⟨0, "EUR", [("FI", [("High", [⟨0, 3600, .num 0⟩])])]⟩

/-- C1: when the response's declared currency differs from the configured
one, `_parse_json` raises `CurrencyMismatch` (so no areas output is
produced); whenever it returns a result, the result's currency equals the
configured currency. -/
theorem c1_currency_validation (base : Base) (resp : Response) :
    (∀ (cols areas : List String), resp.currency ≠ base.currency →
        parseJson base resp (.list cols) (.list areas) = .error .currencyMismatch) ∧
    (∀ (cArg aArg : PyArg) (result : FetchResult),
        parseJson base resp cArg aArg = .ok result →
        result.currency = base.currency) := by
  constructor
  · intro cols areas hne
    unfold parseJson
    simp [normalizeArg, hne]
  · intro cArg aArg result h
    obtain ⟨_, _, _, _, _, _, _, hcur, _, _, hres⟩ := parseJson_ok_elim h
    rw [hres]
    exact hcur

/-- C1, witness: a SEK response against a EUR fetcher raises
`CurrencyMismatch`; the EUR response parses to a EUR result. -/
theorem c1_currency_validation_witness :
    parseJson sampleBase mismatchResp (.list []) (.list ["FI"]) = .error .currencyMismatch ∧
    sampleResult.currency = sampleBase.currency :=
  ⟨(c1_currency_validation sampleBase mismatchResp).1 [] ["FI"] (by decide),
   (c1_currency_validation sampleBase sampleResp).2 (.list []) (.list ["FI"]) sampleResult rfl⟩

/-- C8: the result's area map has exactly one key, `areas[0]`; in
particular requesting `["FI", "SE"]` populates data only under `"FI"`. -/
theorem c8_single_area_key :
    (∀ (base : Base) (resp : Response) (cArg aArg : PyArg) (result : FetchResult)
        (as1 : List String), parseJson base resp cArg aArg = .ok result →
        normalizeArg aArg = .ok as1 →
        result.areas.map Prod.fst = [as1.headD ""]) ∧
    (∀ (base : Base) (resp : Response) (cArg : PyArg) (result : FetchResult),
        parseJson base resp cArg (.list ["FI", "SE"]) = .ok result →
        result.areas.map Prod.fst = ["FI"]) := by
  have key : ∀ (base : Base) (resp : Response) (cArg aArg : PyArg) (result : FetchResult)
      (as1 : List String), parseJson base resp cArg aArg = .ok result →
      normalizeArg aArg = .ok as1 →
      result.areas.map Prod.fst = [as1.headD ""] := by
    intro base resp cArg aArg result as1 h hn
    obtain ⟨areas, columns, a0, rest, series, h1, h2, h3, h4, h5, h6⟩ := parseJson_ok_elim h
    rw [hn] at h1
    cases h1
    simp [h6, h4]
  refine ⟨key, ?_⟩
  intro base resp cArg result h
  simpa using key base resp cArg _ result ["FI", "SE"] h rfl

/-- C8, witness: parsing `sampleResp` with `areas = ["FI", "SE"]` yields the
single area key `"FI"`. -/
theorem c8_single_area_key_witness :
    sampleResult.areas.map Prod.fst = ["FI"] :=
  c8_single_area_key.2 sampleBase sampleResp (.list []) sampleResult rfl

/-- C9: the GET carries `endDate` formatted day-month-year (zero-padded,
with calendar-correct "yesterday" as the default when no end date is given)
and `entityName` equal to the areas concatenated with no separator. -/
theorem c9_request_params (base : Base) (today : Date) (dataType : Nat)
    (xs : List String) :
    (∀ req, fetchJson base today dataType (.list xs) .noneArg = .ok req →
        req.endDate = strftimeDMY (predDay today) ∧
        req.entityName = String.join xs ∧
        req.currency = base.currency ∧ req.url = apiUrl dataType) ∧
    strftimeDMY ⟨2023, 10, 15⟩ = "15-10-2023" ∧
    strftimeDMY ⟨2024, 2, 5⟩ = "05-02-2024" ∧
    predDay ⟨2023, 3, 1⟩ = ⟨2023, 2, 28⟩ ∧
    predDay ⟨2024, 3, 1⟩ = ⟨2024, 2, 29⟩ ∧
    predDay ⟨2024, 1, 1⟩ = ⟨2023, 12, 31⟩ := by
  refine ⟨?_, by decide, by decide, by decide, by decide, by decide⟩
  intro req h
  cases h
  exact ⟨rfl, rfl, rfl, rfl⟩

/-- The request `_fetch_json` builds for `HOURLY`, areas `["FI", "SE"]` and
no end date, on 2023-10-16. -/
def sampleRequest : HttpRequest :=
  ⟨"https://www.nordpoolgroup.com/api/marketdata/page/194", "EUR", "15-10-2023", "FISE"⟩

/-- C9, witness: on 2023-10-16 with areas `["FI", "SE"]`, the request uses
`endDate = "15-10-2023"` and `entityName = "FISE"`. -/
theorem c9_request_params_witness :
    sampleRequest.endDate = strftimeDMY (predDay ⟨2023, 10, 16⟩) ∧
    sampleRequest.entityName = String.join ["FI", "SE"] ∧
    sampleRequest.currency = sampleBase.currency ∧
    sampleRequest.url = apiUrl 194 :=
  (c9_request_params sampleBase ⟨2023, 10, 16⟩ 194 ["FI", "SE"]).1 sampleRequest rfl

/-- The concrete `FetchResult` obtained by parsing `sampleResp` with the
string `"FI"` passed where a list of areas is expected. -/
def sampleResultF : FetchResult :=
  ⟨0, "EUR", [("F", [("High", [⟨0, 3600, .num 0⟩])])]⟩

/-- C10: a plain string passed as `areas` is normalized by `list(areas)`
into its individual characters, so the result's single area key is the
first character of the string, not the string itself. -/
theorem c10_string_areas_key (base : Base) (resp : Response) (cArg : PyArg)
    (s : String) (c0 : Char) (cs : List Char) (hs : s.data = c0 :: cs) :
    normalizeArg (.str s) = .ok (s.data.map (fun c => String.mk [c])) ∧
    ∀ result, parseJson base resp cArg (.str s) = .ok result →
      result.areas.map Prod.fst = [String.mk [c0]] := by
  refine ⟨rfl, ?_⟩
  intro result h
  obtain ⟨areas, columns, a0, rest, series, h1, h2, h3, h4, h5, h6⟩ := parseJson_ok_elim h
  have hn : normalizeArg (.str s) = .ok (s.data.map (fun c => String.mk [c])) := rfl
  rw [hn] at h1
  cases h1
  rw [hs] at h4
  simp only [List.map_cons] at h4
  rw [h6]
  simp [List.cons.injEq] at h4
  simp [h4.1]

/-- C10, witness: `areas = "FI"` normalizes to `["F", "I"]` and the parsed
result's single area key is `"F"`. -/
theorem c10_string_areas_key_witness :
    normalizeArg (.str "FI") = .ok ["F", "I"] ∧
    sampleResultF.areas.map Prod.fst = ["F"] :=
  ⟨(c10_string_areas_key sampleBase sampleResp (.list []) "FI" 'F' ['I'] rfl).1,
   (c10_string_areas_key sampleBase sampleResp (.list []) "FI" 'F' ['I'] rfl).2
     sampleResultF rfl⟩

/-- Every point stored in the series map ends exactly one hour after it
starts. -/
def EndOk (series : Series) : Prop :=
  ∀ e ∈ series, ∀ p ∈ e.2, p.stop = p.start + 3600

theorem endOk_nil : EndOk [] := by
  intro e he
  cases he

theorem endOk_appendPoint {series : Series} {k : String} {p : PricePoint}
    (h : EndOk series) (hp : p.stop = p.start + 3600) :
    EndOk (appendPoint series k p) := by
  intro e he q hq
  unfold appendPoint at he
  rcases List.mem_map.1 he with ⟨e0, he0, rfl⟩
  by_cases hk : e0.1 = k
  · simp only [if_pos hk] at hq
    rcases List.mem_append.1 hq with h1 | h1
    · exact h e0 he0 q h1
    · rw [List.mem_singleton.1 h1]
      exact hp
  · simp only [if_neg hk] at hq
    exact h e0 he0 q hq

theorem endOk_appendKey {series : Series} {k : String} (h : EndOk series) :
    EndOk (series ++ [(k, [])]) := by
  intro e he q hq
  rcases List.mem_append.1 he with h1 | h1
  · exact h e h1 q hq
  · rw [List.mem_singleton.1 h1] at hq
    cases hq

theorem hasKey_append_self (series : Series) (k : String) (pts : List PricePoint) :
    hasKey (series ++ [(k, pts)]) k = true := by
  simp [hasKey, List.any_append]

theorem hasKey_append_mono {series : Series} {k : String} (ks : Series)
    (h : hasKey series k = true) : hasKey (series ++ ks) k = true := by
  unfold hasKey at h ⊢
  simp only [List.any_append, h, Bool.true_or]

theorem hasKey_appendPoint (series : Series) (n k : String) (p : PricePoint) :
    hasKey (appendPoint series n p) k = hasKey series k := by
  unfold hasKey appendPoint
  induction series with
  | nil => rfl
  | cons e es ih =>
      simp only [List.map_cons, List.any_cons, ih]
      by_cases hk : e.1 = n
      · rw [if_pos hk]
      · rw [if_neg hk]

/-- Exhaustive description of one step of the column loop: either the column
filter skips the column and the series map is unchanged, or the series map
passes through the lazy key-creation step (`s2`) and then either stays as is
(extra row) or receives one appended point. -/
theorem processColumn_cases (base : Base) (cols : List String) (extra : Bool)
    (rs re : Int) (series : Series) (c : RawColumn) :
    ((cols ≠ [] ∧ c.name ∉ cols) ∧
        processColumn base cols extra rs re series c = series) ∨
    ∃ s2, (s2 = series ∨ s2 = series ++ [(c.name, ([] : List PricePoint))]) ∧
      (cols = [] ∨ c.name ∈ cols) ∧ hasKey s2 c.name = true ∧
      (processColumn base cols extra rs re series c = s2 ∨
       processColumn base cols extra rs re series c =
         appendPoint s2 c.name ⟨rs, re, .str c.value⟩ ∨
       processColumn base cols extra rs re series c =
         appendPoint s2 c.name ⟨rs, re, .num (base.convToFloat c.value)⟩) := by
  by_cases hg : cols ≠ [] ∧ c.name ∉ cols
  · refine Or.inl ⟨hg, ?_⟩
    unfold processColumn
    rw [if_pos hg]
  · refine Or.inr ?_
    have hmem : cols = [] ∨ c.name ∈ cols := by
      by_cases hc : cols = []
      · exact Or.inl hc
      · exact Or.inr (not_not.1 (fun hn => hg ⟨hc, hn⟩))
    by_cases hk : hasKey series c.name
    · refine ⟨series, Or.inl rfl, hmem, hk, ?_⟩
      unfold processColumn
      rw [if_neg hg]
      dsimp only
      rw [if_pos hk]
      split
      · exact Or.inl rfl
      · split
        · exact Or.inr (Or.inl rfl)
        · exact Or.inr (Or.inr rfl)
    · refine ⟨series ++ [(c.name, [])], Or.inr rfl, hmem,
        hasKey_append_self series c.name [], ?_⟩
      unfold processColumn
      rw [if_neg hg]
      dsimp only
      rw [if_neg hk]
      split
      · exact Or.inl rfl
      · split
        · exact Or.inr (Or.inl rfl)
        · exact Or.inr (Or.inr rfl)

/-- On an extra row, one step of the column loop never appends a point: it
either leaves the series map unchanged or creates one empty list. -/
theorem processColumn_extra (base : Base) (cols : List String) (rs re : Int)
    (series : Series) (c : RawColumn) :
    processColumn base cols true rs re series c = series ∨
    processColumn base cols true rs re series c =
      series ++ [(c.name, ([] : List PricePoint))] := by
  unfold processColumn
  split
  · exact Or.inl rfl
  · dsimp only
    by_cases hk : hasKey series c.name
    · rw [if_pos hk]
      exact Or.inl (if_pos rfl)
    · rw [if_neg hk]
      exact Or.inr (if_pos rfl)

theorem endOk_processColumn (base : Base) (cols : List String) (extra : Bool)
    (rs : Int) {series : Series} (h : EndOk series) (c : RawColumn) :
    EndOk (processColumn base cols extra rs (rs + 3600) series c) := by
  rcases processColumn_cases base cols extra rs (rs + 3600) series c with
    ⟨_, hres⟩ | ⟨s2, hs2, _, _, hres⟩
  · rw [hres]
    exact h
  · have h2 : EndOk s2 := by
      rcases hs2 with h1 | h1
      · rw [h1]
        exact h
      · rw [h1]
        exact endOk_appendKey h
    rcases hres with h1 | h1 | h1 <;> rw [h1]
    · exact h2
    · exact endOk_appendPoint h2 rfl
    · exact endOk_appendPoint h2 rfl

theorem endOk_processColumns (base : Base) (cols : List String) (extra : Bool)
    (rs : Int) (cs : List RawColumn) :
    ∀ series : Series, EndOk series →
      EndOk (processColumns base cols extra rs (rs + 3600) series cs) := by
  induction cs with
  | nil => exact fun series h => h
  | cons c cs0 ih =>
      intro series h
      exact ih _ (endOk_processColumn base cols extra rs h c)

theorem endOk_processRow {base : Base} {cols : List String} {series s1 : Series}
    {r : RawRow} (h : EndOk series)
    (hok : processRow base cols series r = .ok s1) : EndOk s1 := by
  unfold processRow at hok
  split at hok
  · cases hok
    exact h
  · dsimp only at hok
    split at hok
    · cases hok
      exact h
    · split at hok
      · exact Except.noConfusion hok
      · cases hok
        exact endOk_processColumns base cols _ _ _ series h

theorem endOk_processRows {base : Base} {cols : List String} (rows : List RawRow) :
    ∀ {series s1 : Series}, EndOk series →
      processRows base cols series rows = .ok s1 → EndOk s1 := by
  induction rows with
  | nil =>
      intro series s1 h hok
      cases hok
      exact h
  | cons r rows0 ih =>
      intro series s1 h hok
      unfold processRows at hok
      split at hok
      · exact Except.noConfusion hok
      · rename_i s2 hs2
        exact ih (endOk_processRow h hs2) hok

/-- C5: every PricePoint emitted by `_parse_json` satisfies
`end - start == 1 hour` (3600 seconds) exactly. -/
theorem c5_point_duration_one_hour (base : Base) (resp : Response)
    (cArg aArg : PyArg) (result : FetchResult)
    (h : parseJson base resp cArg aArg = .ok result) :
    ∀ a ∈ result.areas, ∀ e ∈ a.2, ∀ p ∈ e.2, p.stop = p.start + 3600 := by
  obtain ⟨areas, columns, a0, rest, series, h1, h2, h3, h4, h5, h6⟩ := parseJson_ok_elim h
  intro a ha e he p hp
  rw [h6] at ha
  rw [List.mem_singleton.1 ha] at he
  exact endOk_processRows resp.data.rows endOk_nil h5 e he p hp

/-- C5, witness: the point parsed from `sampleResp` ends 3600 seconds after
it starts. -/
theorem c5_point_duration_one_hour_witness :
    (⟨0, 3600, .num 0⟩ : PricePoint).stop = (⟨0, 3600, .num 0⟩ : PricePoint).start + 3600 :=
  c5_point_duration_one_hour sampleBase sampleResp (.list []) (.list ["FI"])
    sampleResult rfl ("FI", [("High", [⟨0, 3600, .num 0⟩])]) (List.Mem.head _)
    ("High", [⟨0, 3600, .num 0⟩]) (List.Mem.head _)
    ⟨0, 3600, .num 0⟩ (List.Mem.head _)

/-- Every key of the series map belongs to the requested column list. -/
def KeysIn (series : Series) (cols : List String) : Prop :=
  ∀ e ∈ series, e.1 ∈ cols

theorem keysIn_nil (cols : List String) : KeysIn [] cols := by
  intro e he
  cases he

theorem keysIn_appendPoint {series : Series} {cols : List String} {k : String}
    {p : PricePoint} (h : KeysIn series cols) :
    KeysIn (appendPoint series k p) cols := by
  intro e he
  unfold appendPoint at he
  rcases List.mem_map.1 he with ⟨e0, he0, rfl⟩
  by_cases hk : e0.1 = k
  · simp only [if_pos hk]
    exact h e0 he0
  · simp only [if_neg hk]
    exact h e0 he0

theorem keysIn_processColumn (base : Base) {cols : List String} (extra : Bool)
    (rs re : Int) {series : Series} (hcols : cols ≠ [])
    (h : KeysIn series cols) (c : RawColumn) :
    KeysIn (processColumn base cols extra rs re series c) cols := by
  rcases processColumn_cases base cols extra rs re series c with
    ⟨_, hres⟩ | ⟨s2, hs2, hmem, _, hres⟩
  · rw [hres]
    exact h
  · have hm : c.name ∈ cols := hmem.resolve_left hcols
    have h2 : KeysIn s2 cols := by
      rcases hs2 with h1 | h1 <;> rw [h1]
      · exact h
      · intro e he
        rcases List.mem_append.1 he with h3 | h3
        · exact h e h3
        · rw [List.mem_singleton.1 h3]
          exact hm
    rcases hres with h1 | h1 | h1 <;> rw [h1]
    · exact h2
    · exact keysIn_appendPoint h2
    · exact keysIn_appendPoint h2

theorem keysIn_processColumns (base : Base) {cols : List String} (extra : Bool)
    (rs re : Int) (hcols : cols ≠ []) (cs : List RawColumn) :
    ∀ {series : Series}, KeysIn series cols →
      KeysIn (processColumns base cols extra rs re series cs) cols := by
  induction cs with
  | nil => exact fun h => h
  | cons c cs0 ih =>
      intro series h
      exact ih (keysIn_processColumn base extra rs re hcols h c)

theorem keysIn_processRow {base : Base} {cols : List String} {series s1 : Series}
    {r : RawRow} (hcols : cols ≠ []) (h : KeysIn series cols)
    (hok : processRow base cols series r = .ok s1) : KeysIn s1 cols := by
  unfold processRow at hok
  split at hok
  · cases hok
    exact h
  · dsimp only at hok
    split at hok
    · cases hok
      exact h
    · split at hok
      · exact Except.noConfusion hok
      · cases hok
        exact keysIn_processColumns base _ _ _ hcols r.columns h

theorem keysIn_processRows {base : Base} {cols : List String} (rows : List RawRow)
    (hcols : cols ≠ []) :
    ∀ {series s1 : Series}, KeysIn series cols →
      processRows base cols series rows = .ok s1 → KeysIn s1 cols := by
  induction rows with
  | nil =>
      intro series s1 h hok
      cases hok
      exact h
  | cons r rows0 ih =>
      intro series s1 h hok
      unfold processRows at hok
      split at hok
      · exact Except.noConfusion hok
      · rename_i s2 hs2
        exact ih (keysIn_processRow hcols h hs2) hok

theorem hasKey_processColumn (base : Base) (cols : List String) (extra : Bool)
    (rs re : Int) {series : Series} {k : String} (h : hasKey series k = true)
    (c : RawColumn) :
    hasKey (processColumn base cols extra rs re series c) k = true := by
  rcases processColumn_cases base cols extra rs re series c with
    ⟨_, hres⟩ | ⟨s2, hs2, _, _, hres⟩
  · rw [hres]
    exact h
  · have h2 : hasKey s2 k = true := by
      rcases hs2 with h1 | h1 <;> rw [h1]
      · exact h
      · exact hasKey_append_mono _ h
    rcases hres with h1 | h1 | h1 <;> rw [h1]
    · exact h2
    · rw [hasKey_appendPoint]
      exact h2
    · rw [hasKey_appendPoint]
      exact h2

theorem hasKey_processColumn_self (base : Base) (cols : List String)
    (extra : Bool) (rs re : Int) (series : Series) {c : RawColumn}
    (hg : cols = [] ∨ c.name ∈ cols) :
    hasKey (processColumn base cols extra rs re series c) c.name = true := by
  rcases processColumn_cases base cols extra rs re series c with
    ⟨⟨hne, hnm⟩, _⟩ | ⟨s2, _, _, hk2, hres⟩
  · rcases hg with h1 | h1
    · exact absurd h1 hne
    · exact absurd h1 hnm
  · rcases hres with h1 | h1 | h1 <;> rw [h1]
    · exact hk2
    · rw [hasKey_appendPoint]
      exact hk2
    · rw [hasKey_appendPoint]
      exact hk2

theorem hasKey_processColumns (base : Base) (cols : List String) (extra : Bool)
    (rs re : Int) (cs : List RawColumn) :
    ∀ {series : Series} {k : String}, hasKey series k = true →
      hasKey (processColumns base cols extra rs re series cs) k = true := by
  induction cs with
  | nil => exact fun h => h
  | cons c cs0 ih =>
      exact fun h => ih (hasKey_processColumn base cols extra rs re h c)

theorem hasKey_processColumns_mem (base : Base) (cols : List String)
    (extra : Bool) (rs re : Int) (cs : List RawColumn) :
    ∀ (series : Series) {c : RawColumn}, c ∈ cs → (cols = [] ∨ c.name ∈ cols) →
      hasKey (processColumns base cols extra rs re series cs) c.name = true := by
  induction cs with
  | nil =>
      intro series c hc
      cases hc
  | cons c0 cs0 ih =>
      intro series c hc hg
      rcases List.mem_cons.1 hc with h1 | h1
      · subst h1
        exact hasKey_processColumns base cols extra rs re cs0
          (hasKey_processColumn_self base cols extra rs re series hg)
      · exact ih _ h1 hg

theorem hasKey_processRow {base : Base} {cols : List String} {series s1 : Series}
    {r : RawRow} {k : String} (h : hasKey series k = true)
    (hok : processRow base cols series r = .ok s1) : hasKey s1 k = true := by
  unfold processRow at hok
  split at hok
  · cases hok
    exact h
  · dsimp only at hok
    split at hok
    · cases hok
      exact h
    · split at hok
      · exact Except.noConfusion hok
      · cases hok
        exact hasKey_processColumns base cols _ _ _ r.columns h

theorem hasKey_processRow_mem {base : Base} {cols : List String}
    {series s1 : Series} {r : RawRow} {nm : String} {c : RawColumn}
    (hnm : r.name = some nm) (hph : (splitRowName nm).headD "" = "PH")
    (hok : processRow base cols series r = .ok s1) (hc : c ∈ r.columns)
    (hg : cols = [] ∨ c.name ∈ cols) : hasKey s1 c.name = true := by
  unfold processRow at hok
  split at hok
  · rename_i hnone
    rw [hnm] at hnone
    exact Option.noConfusion hnone
  · rename_i nm2 hnm2
    rw [hnm] at hnm2
    injection hnm2 with hnm3
    subst hnm3
    dsimp only at hok
    split at hok
    · rename_i hne
      exact absurd hph hne
    · split at hok
      · exact Except.noConfusion hok
      · cases hok
        exact hasKey_processColumns_mem base cols _ _ _ r.columns series hc hg

theorem hasKey_processRows {base : Base} {cols : List String}
    (rows : List RawRow) :
    ∀ {series s1 : Series} {k : String}, hasKey series k = true →
      processRows base cols series rows = .ok s1 → hasKey s1 k = true := by
  induction rows with
  | nil =>
      intro series s1 k h hok
      cases hok
      exact h
  | cons r rows0 ih =>
      intro series s1 k h hok
      unfold processRows at hok
      split at hok
      · exact Except.noConfusion hok
      · rename_i s2 hs2
        exact ih (hasKey_processRow h hs2) hok

theorem hasKey_processRows_mem {base : Base} {cols : List String}
    (rows : List RawRow) :
    ∀ {series s1 : Series} {r : RawRow} {nm : String} {c : RawColumn},
      r ∈ rows → r.name = some nm → (splitRowName nm).headD "" = "PH" →
      c ∈ r.columns → (cols = [] ∨ c.name ∈ cols) →
      processRows base cols series rows = .ok s1 →
      hasKey s1 c.name = true := by
  induction rows with
  | nil =>
      intro series s1 r nm c hr
      cases hr
  | cons r0 rows0 ih =>
      intro series s1 r nm c hr hnm hph hc hg hok
      unfold processRows at hok
      split at hok
      · exact Except.noConfusion hok
      · rename_i s2 hs2
        rcases List.mem_cons.1 hr with h1 | h1
        · subst h1
          exact hasKey_processRows rows0 (hasKey_processRow_mem hnm hph hs2 hc hg) hok
        · exact ih h1 hnm hph hc hg hok

/-- C6: with an empty requested column list, every column name of every
retained row appears as a key in the area's series map; with
`columns = ["High"]`, only the key `"High"` can appear. -/
theorem c6_column_selection :
    (∀ (base : Base) (resp : Response) (aArg : PyArg) (result : FetchResult),
        parseJson base resp (.list []) aArg = .ok result →
        ∀ r ∈ resp.data.rows, ∀ nm, r.name = some nm →
        (splitRowName nm).headD "" = "PH" →
        ∀ c ∈ r.columns, ∀ a ∈ result.areas, hasKey a.2 c.name = true) ∧
    (∀ (base : Base) (resp : Response) (aArg : PyArg) (result : FetchResult),
        parseJson base resp (.list ["High"]) aArg = .ok result →
        ∀ a ∈ result.areas, ∀ e ∈ a.2, e.1 = "High") := by
  constructor
  · intro base resp aArg result h r hr nm hnm hph c hc a ha
    obtain ⟨areas, columns, a0, rest, series, h1, h2, h3, h4, h5, h6⟩ := parseJson_ok_elim h
    have h2a : (Except.ok ([] : List String) : Except FetchError (List String)) =
        .ok columns := h2
    injection h2a with h2b
    subst h2b
    rw [h6] at ha
    rw [List.mem_singleton.1 ha]
    exact hasKey_processRows_mem resp.data.rows hr hnm hph hc (Or.inl rfl) h5
  · intro base resp aArg result h a ha e he
    obtain ⟨areas, columns, a0, rest, series, h1, h2, h3, h4, h5, h6⟩ := parseJson_ok_elim h
    have h2a : (Except.ok (["High"] : List String) : Except FetchError (List String)) =
        .ok columns := h2
    injection h2a with h2b
    subst h2b
    rw [h6] at ha
    rw [List.mem_singleton.1 ha] at he
    have hk := keysIn_processRows resp.data.rows (by simp) (keysIn_nil _) h5 e he
    simpa using hk

/-- C6, witness: parsing `sampleResp` with all columns yields the key
`"High"`, and parsing it with `columns = ["High"]` yields only `"High"`. -/
theorem c6_column_selection_witness :
    hasKey [("High", [(⟨0, 3600, .num 0⟩ : PricePoint)])] "High" = true ∧
    (("High", [(⟨0, 3600, .num 0⟩ : PricePoint)]) : String × List PricePoint).1 =
      "High" :=
  ⟨c6_column_selection.1 sampleBase sampleResp (.list ["FI"]) sampleResult rfl
      sampleRow (List.Mem.head _) "PH-2023-10-15-3" rfl (by decide)
      ⟨"High", "1"⟩ (List.Mem.head _)
      ("FI", [("High", [⟨0, 3600, .num 0⟩])]) (List.Mem.head _),
   c6_column_selection.2 sampleBase sampleResp (.list ["FI"]) sampleResult rfl
      ("FI", [("High", [⟨0, 3600, .num 0⟩])]) (List.Mem.head _)
      ("High", [⟨0, 3600, .num 0⟩]) (List.Mem.head _)⟩

theorem processColumns_extra (base : Base) (cols : List String) (rs re : Int)
    (cs : List RawColumn) :
    ∀ series : Series, ∃ extra,
      processColumns base cols true rs re series cs = series ++ extra ∧
      ∀ e ∈ extra, e.2 = ([] : List PricePoint) := by
  induction cs with
  | nil =>
      intro series
      exact ⟨[], by simp [processColumns], fun e he => absurd he (List.not_mem_nil e)⟩
  | cons c cs0 ih =>
      intro series
      rcases processColumn_extra base cols rs re series c with h | h
      · obtain ⟨extra, h1, h2⟩ := ih series
        refine ⟨extra, ?_, h2⟩
        show processColumns base cols true rs re
          (processColumn base cols true rs re series c) cs0 = series ++ extra
        rw [h]
        exact h1
      · obtain ⟨extra, h1, h2⟩ := ih (series ++ [(c.name, [])])
        refine ⟨(c.name, []) :: extra, ?_, ?_⟩
        · show processColumns base cols true rs re
            (processColumn base cols true rs re series c) cs0 =
            series ++ ((c.name, ([] : List PricePoint)) :: extra)
          rw [h, h1, List.append_assoc]
          rfl
        · intro e he
          rcases List.mem_cons.1 he with h3 | h3
          · rw [h3]
          · exact h2 e h3

/-- C7: a row flagged `IsExtraRow` appends no PricePoint for any of its
columns; the series map is only extended with (possibly) new empty column
lists. -/
theorem c7_extra_row_no_points (base : Base) (cols : List String)
    (series s1 : Series) (r : RawRow) (hx : r.isExtraRow = true)
    (hok : processRow base cols series r = .ok s1) :
    ∃ extra, s1 = series ++ extra ∧ ∀ e ∈ extra, e.2 = ([] : List PricePoint) := by
  unfold processRow at hok
  split at hok
  · cases hok
    exact ⟨[], by simp, fun e he => absurd he (List.not_mem_nil e)⟩
  · dsimp only at hok
    split at hok
    · cases hok
      exact ⟨[], by simp, fun e he => absurd he (List.not_mem_nil e)⟩
    · split at hok
      · exact Except.noConfusion hok
      · cases hok
        rw [hx]
        exact processColumns_extra base cols _ _ r.columns series

/-- A concrete extra row: same name and columns as `sampleRow` but flagged
`IsExtraRow`. -/
def sampleExtraRow : RawRow := ⟨some "PH-2023-10-15-3", true, [⟨"High", "1"⟩]⟩

/-- C7, witness: processing `sampleExtraRow` from an empty series map only
creates the empty `"High"` list. -/
theorem c7_extra_row_no_points_witness :
    ∃ extra, ([("High", ([] : List PricePoint))] : Series) = [] ++ extra ∧
      ∀ e ∈ extra, e.2 = ([] : List PricePoint) :=
  c7_extra_row_no_points sampleBase [] [] [("High", [])] sampleExtraRow rfl rfl

end Elbas
